import Mathlib

/-!
Verification of the 2-D ICP (iterative closest point) registration library.

The Rust source is embedded shallowly:
* `f32` scalars become exact rationals `ℚ`; overflow and rounding are out of
  scope, the `±0.001` tolerances of the source are kept literally;
* the transcendental / iterative floating-point kernels of `nalgebra`
  (`cos`/`sin` inside `Rotation2::new`, `atan2`, and the SVD of a 2×2 matrix)
  are parameters of the development, bundled in a `Numerics` record: every
  theorem holds for an arbitrary interpretation of those kernels unless it
  states explicit hypotheses about them;
* the k-d tree of the `kdtree` crate answers exact nearest-neighbour queries
  by squared Euclidean distance over the stored points; it is modelled as the
  argmin over the stored sequence (first stored point wins on ties);
* Rust panics (`unwrap` on `None`) and non-finite float results (division by a
  zero length) are modelled by `Option`-returning variants of the two partial
  functions, `closest_point_kd?` and `calculate_center_of_mass?`.
-/

/-- A 2-D point / vector with rational coordinates, modelling `na::Point2<f32>`
and `na::Vector2<f32>` in exact arithmetic. -/
structure Pt where
  x : ℚ
  y : ℚ
deriving DecidableEq, Repr

def Pt.add (p q : Pt) : Pt := ⟨p.x + q.x, p.y + q.y⟩

def Pt.sub (p q : Pt) : Pt := ⟨p.x - q.x, p.y - q.y⟩

theorem Pt.ext_xy {p q : Pt} (hx : p.x = q.x) (hy : p.y = q.y) : p = q := by
  cases p; cases q; simp_all

/-- A 2×2 matrix with rational entries, modelling `na::Matrix2<f32>`:
`a b / c d` are the entries `(0,0) (0,1) / (1,0) (1,1)`. -/
structure Mat2 where
  a : ℚ
  b : ℚ
  c : ℚ
  d : ℚ
deriving DecidableEq, Repr

def Mat2.zero : Mat2 := ⟨0, 0, 0, 0⟩

def Mat2.one : Mat2 := ⟨1, 0, 0, 1⟩

def Mat2.add (m n : Mat2) : Mat2 := ⟨m.a + n.a, m.b + n.b, m.c + n.c, m.d + n.d⟩

def Mat2.mul (m n : Mat2) : Mat2 :=
  ⟨m.a * n.a + m.b * n.c, m.a * n.b + m.b * n.d,
   m.c * n.a + m.d * n.c, m.c * n.b + m.d * n.d⟩

def Mat2.transpose (m : Mat2) : Mat2 := ⟨m.a, m.c, m.b, m.d⟩

def Mat2.det (m : Mat2) : ℚ := m.a * m.d - m.b * m.c

/-- Matrix–point product `m * p` (`na` applies a `Matrix2` to a `Point2`). -/
def Mat2.mulPt (m : Mat2) (p : Pt) : Pt :=
  ⟨m.a * p.x + m.b * p.y, m.c * p.x + m.d * p.y⟩

/-- Outer product `p * qᵗ` of a column vector and a row vector, as used for the
summands `d1 * d2.transpose()` of the cross-covariance matrix. -/
def Mat2.outer (p q : Pt) : Mat2 := ⟨p.x * q.x, p.x * q.y, p.y * q.x, p.y * q.y⟩

theorem Mat2.ext4 {m n : Mat2} (ha : m.a = n.a) (hb : m.b = n.b)
    (hc : m.c = n.c) (hd : m.d = n.d) : m = n := by
  cases m; cases n; simp_all

/-- The opaque floating-point kernels used by the source: `cos`/`sin` as
computed by `na::Rotation2::new`, `f32::atan2`, and the SVD of a 2×2 matrix as
computed by `na::SVD::new` (returning the factors `u` and `v_t`). They are
deterministic `f32` routines; the development is parametric in their values. -/
structure Numerics where
  cos : ℚ → ℚ
  sin : ℚ → ℚ
  atan2 : ℚ → ℚ → ℚ
  svd : Mat2 → Mat2 × Mat2

/-- `na::Rotation2::new(angle) * p`. -/
def rot2 (N : Numerics) (angle : ℚ) (p : Pt) : Pt :=
  ⟨N.cos angle * p.x - N.sin angle * p.y,
   N.sin angle * p.x + N.cos angle * p.y⟩

/-- The `ICPPoint` trait of `icp_point.rs`: translate, rotate (about the
origin, by an angle in radians), planar position, and a validity predicate. -/
class ICPPoint (α : Type) where
  translate : α → ℚ → ℚ → α
  rotate : Numerics → α → ℚ → α
  point : α → Pt
  is_data_valid : α → Bool

/-- `impl ICPPoint for na::Point2<f32>`. -/
instance : ICPPoint Pt where
  translate p x y := ⟨p.x + x, p.y + y⟩
  rotate N p angle_rad := rot2 N angle_rad p
  point p := p
  is_data_valid _ := true

/-- `impl ICPPoint for (f32, f32)`: the same operations routed through
`na::Point2` exactly as in the source. -/
instance : ICPPoint (ℚ × ℚ) where
  translate p x y :=
    let np : Pt := ⟨p.1 + x, p.2 + y⟩
    (np.x, np.y)
  rotate N p angle_rad :=
    let np := rot2 N angle_rad ⟨p.1, p.2⟩
    (np.x, np.y)
  point p := ⟨p.1, p.2⟩
  is_data_valid _ := true

/-- The running sum `center_of_mass += p.point().coords` of
`calculate_center_of_mass`. -/
def sumPoints {α : Type} [ICPPoint α] (pts : List α) : Pt :=
  pts.foldl (fun acc p => acc.add (ICPPoint.point p)) ⟨0, 0⟩

/-- `ICPColCenterOfMass::calculate_center_of_mass`: sum all point positions,
then divide by the length. -/
def calculate_center_of_mass {α : Type} [ICPPoint α] (pts : List α) : Pt :=
  let s := sumPoints pts
  ⟨s.x / (pts.length : ℚ), s.y / (pts.length : ℚ)⟩

/-- `f32` semantics of the same computation: with an empty collection the
division `/ 0` produces the non-finite value `0.0/0.0 = NaN`; `none` models
that non-finite outcome. -/
def calculate_center_of_mass? {α : Type} [ICPPoint α] (pts : List α) : Option Pt :=
  if pts.length = 0 then none else some (calculate_center_of_mass pts)

/-- `kdtree::distance::squared_euclidean` on 2-D keys. -/
def sqDist (p q : Pt) : ℚ := (p.x - q.x) ^ 2 + (p.y - q.y) ^ 2

/-- `KDTreedIcpCollection::closest_point_kd`: the position of the stored point
nearest to `q` by squared Euclidean distance (the k-d tree's exact
nearest-neighbour answer; the first stored point wins on ties). On an empty
collection the Rust code panics — see `closest_point_kd?`; the `⟨0,0⟩` default
here is unreachable under the non-emptiness contract. -/
def closest_point_kd {α : Type} [ICPPoint α] (pts : List α) (q : Pt) : Pt :=
  match pts with
  | [] => ⟨0, 0⟩
  | p :: rest =>
    rest.foldl
      (fun best cand =>
        if sqDist (ICPPoint.point cand) q < sqDist best q then ICPPoint.point cand
        else best)
      (ICPPoint.point p)

/-- Panic-aware model of `closest_point_kd`: the source unwraps
`iter_nearest(..).next()`, which is `None` on an empty collection, so the call
panics there; `none` models that panic. -/
def closest_point_kd? {α : Type} [ICPPoint α] (pts : List α) (q : Pt) : Option Pt :=
  match pts with
  | [] => none
  | _ :: _ => some (closest_point_kd pts q)

/-- `points_equal_tolerance` / `floats_are_equal` from `icp_collection.rs`. -/
def floats_are_equal (a b : ℚ) : Prop := |a - b| ≤ 1 / 1000

def points_equal_tolerance (p1 p2 : Pt) : Prop :=
  floats_are_equal p1.x p2.x ∧ floats_are_equal p1.y p2.y

instance (a b : ℚ) : Decidable (floats_are_equal a b) :=
  inferInstanceAs (Decidable (_ ≤ _))

instance (p1 p2 : Pt) : Decidable (points_equal_tolerance p1 p2) :=
  inferInstanceAs (Decidable (_ ∧ _))

/-- The mutable movable collection of `icp_collection.rs`: an owned point
sequence plus the cached center of mass. -/
structure ICPCollection (α : Type) where
  points : List α
  center_of_mass : Pt

/-- `ICPCol::new` for `ICPCollection`: center of mass computed eagerly. -/
def ICPCollection.new {α : Type} [ICPPoint α] (pts : List α) : ICPCollection α :=
  { points := pts, center_of_mass := calculate_center_of_mass pts }

/-- `ICPCollection::translate`: every point is replaced by
`p.translate(x, y)`; the cached center of mass is updated incrementally by
adding `(x, y)`. -/
def ICPCollection.translate {α : Type} [ICPPoint α] (c : ICPCollection α)
    (x y : ℚ) : ICPCollection α :=
  { points := c.points.map (fun p => ICPPoint.translate p x y),
    center_of_mass := c.center_of_mass.add ⟨x, y⟩ }

/-- `ICPCollection::rotate`: every point is replaced by `p.rotate(rot_rad)`;
the cached center of mass is recomputed from scratch. -/
def ICPCollection.rotate {α : Type} [ICPPoint α] (N : Numerics)
    (c : ICPCollection α) (rot_rad : ℚ) : ICPCollection α :=
  let pts := c.points.map (fun p => ICPPoint.rotate N p rot_rad)
  { points := pts, center_of_mass := calculate_center_of_mass pts }

/-- The read-only indexed reference collection of `icp_collection.rs`: the
borrowed point sequence (over which the k-d tree is built) plus the cached
center of mass. -/
structure KDTreedIcpCollection (α : Type) where
  collection : List α
  center_of_mass : Pt

/-- `ICPCol::new` for `KDTreedIcpCollection`: index the points, compute the
center of mass once. -/
def KDTreedIcpCollection.new {α : Type} [ICPPoint α] (pts : List α) :
    KDTreedIcpCollection α :=
  { collection := pts, center_of_mass := calculate_center_of_mass pts }

/-- Nearest-neighbour query against the reference collection. -/
def KDTreedIcpCollection.closest {α : Type} [ICPPoint α]
    (c : KDTreedIcpCollection α) (q : Pt) : Pt :=
  closest_point_kd c.collection q

/-- The `ICPResult` record of `lib.rs`. -/
structure ICPResult where
  x_offset : ℚ
  y_offset : ℚ
  rotation_offset_rad : ℚ
  convergence : ℚ
deriving DecidableEq, Repr

/-- The `Icp` registration session of `lib.rs`. -/
structure Icp (ρ μ : Type) where
  points_reference : KDTreedIcpCollection ρ
  points_other : ICPCollection μ
  max_iterations : ℕ
  convergence_distance : ℚ
  convergence_rotation : ℚ
  convergence_points_maxdist : ℚ

/-- `Icp::new`. -/
def Icp.new {ρ μ : Type} [ICPPoint ρ] [ICPPoint μ] (scan1 : List ρ)
    (scan2 : List μ) (max_iterations : ℕ)
    (convergence_distance convergence_rotation convergence_points_maxdist : ℚ) :
    Icp ρ μ :=
  { points_reference := KDTreedIcpCollection.new scan1,
    points_other := ICPCollection.new scan2,
    max_iterations := max_iterations,
    convergence_distance := convergence_distance,
    convergence_rotation := convergence_rotation,
    convergence_points_maxdist := convergence_points_maxdist }

/-- A transformation function as passed to `do_icp_generic`: it receives both
collections by `&mut` (modelled by returning them) and produces the
incremental translation and rotation. -/
abbrev TransFn (ρ μ : Type) : Type :=
  KDTreedIcpCollection ρ → ICPCollection μ →
    (KDTreedIcpCollection ρ × ICPCollection μ) × Pt × ℚ

/-- `Icp::center_of_mass_corresp_kd_with_svd`, translated loop by loop:
correspondences by nearest neighbour, centroids of both sides of the
correspondence set, cross-covariance matrix, SVD, rotation matrix `u * v_t`,
angle `atan2(R[1,0], R[0,0])`, translation `centroid1 - R * centroid2`.
Neither collection is written to, so both are returned unchanged. -/
def center_of_mass_corresp_kd_with_svd {ρ μ : Type} [ICPPoint ρ] [ICPPoint μ]
    (N : Numerics) : TransFn ρ μ := fun scan1 scan2 =>
  let n : ℚ := (scan2.points.length : ℚ)
  let corresp : List (Pt × Pt) :=
    scan2.points.map (fun p => (ICPPoint.point p, scan1.closest (ICPPoint.point p)))
  let centroid1 := corresp.foldl (fun (acc : Pt) pr => acc.add pr.2) ⟨0, 0⟩
  let centroid2 := corresp.foldl (fun (acc : Pt) pr => acc.add pr.1) ⟨0, 0⟩
  let centroid1 : Pt := ⟨centroid1.x / n, centroid1.y / n⟩
  let centroid2 : Pt := ⟨centroid2.x / n, centroid2.y / n⟩
  let h := corresp.foldl
    (fun acc pr => acc.add (Mat2.outer (pr.2.sub centroid1) (pr.1.sub centroid2)))
    Mat2.zero
  let u := (N.svd h).1
  let vt := (N.svd h).2
  let rotation_matrix := u.mul vt
  let rotation_angle := N.atan2 rotation_matrix.c rotation_matrix.a
  let translation_vector := centroid1.sub (rotation_matrix.mulPt centroid2)
  ((scan1, scan2), translation_vector, rotation_angle)

/-- `translation_vector.norm() < c` of the source, encoded without the square
root: for real arithmetic `‖v‖ < c ↔ 0 < c ∧ ‖v‖² < c²` exactly (a norm is
non-negative), and the right-hand side is rational. -/
def normLt (v : Pt) (c : ℚ) : Prop := 0 < c ∧ v.x ^ 2 + v.y ^ 2 < c ^ 2

instance (v : Pt) (c : ℚ) : Decidable (normLt v c) :=
  inferInstanceAs (Decidable (_ ∧ _))

/-- The output of the `while` loop of `do_icp_generic`: both collections, the
running totals, and — for specification purposes only — the list of the
`(translation_vector, rotation)` pairs of the iterations that executed, in
order. -/
structure LoopOut (ρ μ : Type) where
  ref : KDTreedIcpCollection ρ
  mov : ICPCollection μ
  total_translation : Pt
  total_rotation : ℚ
  steps : List (Pt × ℚ)

/-- The `while i < max_iterations` loop of `do_icp_generic`: call the
transformation function, apply translation then rotation to the movable
collection, accumulate the totals, and break once both the translation norm
and the absolute rotation fall under their thresholds. `fuel` is the number
of remaining iterations, initially `max_iterations`. -/
def icpLoop {ρ μ : Type} [ICPPoint ρ] [ICPPoint μ] (N : Numerics)
    (tf : TransFn ρ μ) (cd cr : ℚ) (ref : KDTreedIcpCollection ρ)
    (mov : ICPCollection μ) (tt : Pt) (tr : ℚ) : ℕ → LoopOut ρ μ
  | 0 => ⟨ref, mov, tt, tr, []⟩
  | fuel + 1 =>
    let out := tf ref mov
    let ref1 := out.1.1
    let mov1 := out.1.2
    let t := out.2.1
    let r := out.2.2
    let mov2 := (mov1.translate t.x t.y).rotate N r
    let tt1 := tt.add t
    let tr1 := tr + r
    if normLt t cd ∧ |r| < cr then ⟨ref1, mov2, tt1, tr1, [(t, r)]⟩
    else
      let rest := icpLoop N tf cd cr ref1 mov2 tt1 tr1 fuel
      ⟨rest.ref, rest.mov, rest.total_translation, rest.total_rotation,
       (t, r) :: rest.steps⟩

/-- The per-point test of the `Finalizing` phase: the point's nearest
reference neighbour is strictly within `convergence_points_maxdist` on both
axes. -/
def ptPasses {ρ : Type} [ICPPoint ρ] (ref : KDTreedIcpCollection ρ)
    (maxdist : ℚ) (pt : Pt) : Prop :=
  |pt.x - (ref.closest pt).x| < maxdist ∧ |pt.y - (ref.closest pt).y| < maxdist

instance {ρ : Type} [ICPPoint ρ] (ref : KDTreedIcpCollection ρ) (maxdist : ℚ)
    (pt : Pt) : Decidable (ptPasses ref maxdist pt) :=
  inferInstanceAs (Decidable (_ ∧ _))

/-- `Icp::do_icp_generic`: apply the initial guess, run the iteration loop,
then compute the convergence ratio. Returns the `ICPResult` together with the
final session state (`self` is `&mut` in the source). -/
def do_icp_generic {ρ μ : Type} [ICPPoint ρ] [ICPPoint μ] (N : Numerics)
    (icp : Icp ρ μ) (x y angle_rad : ℚ) (tf : TransFn ρ μ) :
    ICPResult × Icp ρ μ :=
  let mov0 := (icp.points_other.translate x y).rotate N angle_rad
  let out := icpLoop N tf icp.convergence_distance icp.convergence_rotation
    icp.points_reference mov0 ⟨x, y⟩ angle_rad icp.max_iterations
  let converged_count := out.mov.points.countP
    (fun p => decide (ptPasses out.ref icp.convergence_points_maxdist (ICPPoint.point p)))
  let convergence : ℚ := (converged_count : ℚ) / (out.mov.points.length : ℚ)
  ({ x_offset := out.total_translation.x, y_offset := out.total_translation.y,
     rotation_offset_rad := out.total_rotation, convergence := convergence },
   { icp with points_reference := out.ref, points_other := out.mov })

/-- `Icp::do_icp`: run with the SVD estimator and hand back the final movable
point sequence. -/
def do_icp {ρ μ : Type} [ICPPoint ρ] [ICPPoint μ] (N : Numerics) (icp : Icp ρ μ)
    (x y angle_rad : ℚ) : ICPResult × List μ :=
  let res := do_icp_generic N icp x y angle_rad (center_of_mass_corresp_kd_with_svd N)
  (res.1, res.2.points_other.points)

/-- The trace of executed loop iterations of a `do_icp` run (specification
observer of the same `icpLoop` call made by `do_icp_generic`). -/
def run_trace {ρ μ : Type} [ICPPoint ρ] [ICPPoint μ] (N : Numerics)
    (icp : Icp ρ μ) (x y angle_rad : ℚ) : List (Pt × ℚ) :=
  (icpLoop N (center_of_mass_corresp_kd_with_svd N) icp.convergence_distance
    icp.convergence_rotation icp.points_reference
    ((icp.points_other.translate x y).rotate N angle_rad) ⟨x, y⟩ angle_rad
    icp.max_iterations).steps

/-! Algebraic helpers: recursive sums of points and matrices, and the
reduction of the source's `foldl` accumulations to them. -/

def sumPts : List Pt → Pt
  | [] => ⟨0, 0⟩
  | p :: l => p.add (sumPts l)

def sumMats : List Mat2 → Mat2
  | [] => Mat2.zero
  | m :: l => m.add (sumMats l)

theorem foldl_pt_add {β : Type} (f : β → Pt) (l : List β) (init : Pt) :
    l.foldl (fun acc x => acc.add (f x)) init = init.add (sumPts (l.map f)) := by
  induction l generalizing init with
  | nil =>
    simp only [List.foldl_nil, List.map_nil, sumPts]
    exact Pt.ext_xy (by simp [Pt.add]) (by simp [Pt.add])
  | cons p l ih =>
    simp only [List.foldl_cons, List.map_cons, sumPts]
    rw [ih]
    exact Pt.ext_xy (by simp [Pt.add]; ring) (by simp [Pt.add]; ring)

theorem foldl_mat_add {β : Type} (f : β → Mat2) (l : List β) (init : Mat2) :
    l.foldl (fun acc x => acc.add (f x)) init = init.add (sumMats (l.map f)) := by
  induction l generalizing init with
  | nil =>
    simp only [List.foldl_nil, List.map_nil, sumMats]
    exact Mat2.ext4 (by simp [Mat2.add, Mat2.zero]) (by simp [Mat2.add, Mat2.zero])
      (by simp [Mat2.add, Mat2.zero]) (by simp [Mat2.add, Mat2.zero])
  | cons m l ih =>
    simp only [List.foldl_cons, List.map_cons, sumMats]
    rw [ih]
    exact Mat2.ext4 (by simp [Mat2.add]; ring) (by simp [Mat2.add]; ring)
      (by simp [Mat2.add]; ring) (by simp [Mat2.add]; ring)

theorem pt_zero_add (s : Pt) : Pt.add ⟨0, 0⟩ s = s :=
  Pt.ext_xy (by simp [Pt.add]) (by simp [Pt.add])

theorem mat_zero_add (s : Mat2) : Mat2.add Mat2.zero s = s :=
  Mat2.ext4 (by simp [Mat2.add, Mat2.zero]) (by simp [Mat2.add, Mat2.zero])
    (by simp [Mat2.add, Mat2.zero]) (by simp [Mat2.add, Mat2.zero])

/-! Specification-level form of the estimator (§4.4 of the spec), to be
compared with the loop-by-loop translation
`center_of_mass_corresp_kd_with_svd`. -/

/-- The correspondence set: one nearest reference point per movable point
(`(movable position, matched reference position)` pairs). -/
def specCorresp {ρ μ : Type} [ICPPoint ρ] [ICPPoint μ] (ref : List ρ)
    (mov : List μ) : List (Pt × Pt) :=
  mov.map (fun p => (ICPPoint.point p, closest_point_kd ref (ICPPoint.point p)))

/-- Arithmetic mean of a list of points. -/
def meanPts (l : List Pt) : Pt :=
  ⟨(sumPts l).x / (l.length : ℚ), (sumPts l).y / (l.length : ℚ)⟩

/-- `centroid_ref`: mean of the matched reference points of the
correspondence set. -/
def specCentroidRef (c : List (Pt × Pt)) : Pt := meanPts (c.map Prod.snd)

/-- `centroid_mov`: mean of the movable points of the correspondence set. -/
def specCentroidMov (c : List (Pt × Pt)) : Pt := meanPts (c.map Prod.fst)

/-- The cross-covariance matrix
`H = Σ (ref_i - centroid_ref) * (mov_i - centroid_mov)ᵗ`. -/
def crossCovOf (c : List (Pt × Pt)) : Mat2 :=
  sumMats (c.map (fun pr =>
    Mat2.outer (pr.2.sub (specCentroidRef c)) (pr.1.sub (specCentroidMov c))))

/-- Cross-covariance of the nearest-neighbour correspondence set of two point
sequences. -/
def crossCovariance {ρ μ : Type} [ICPPoint ρ] [ICPPoint μ] (ref : List ρ)
    (mov : List μ) : Mat2 :=
  crossCovOf (specCorresp ref mov)

/-- §4.4 of the spec, steps 2–6, in closed form: centroids over the
correspondence set, cross-covariance `H`, SVD, `R = U * Vᵗ`, angle
`atan2(R[1,0], R[0,0])`, translation `t = centroid_ref - R * centroid_mov`. -/
def specEstimate {ρ μ : Type} [ICPPoint ρ] [ICPPoint μ] (N : Numerics)
    (ref : List ρ) (mov : List μ) : Pt × ℚ :=
  let c := specCorresp ref mov
  let h := crossCovOf c
  let R := (N.svd h).1.mul (N.svd h).2
  ((specCentroidRef c).sub (R.mulPt (specCentroidMov c)), N.atan2 R.c R.a)

/-! Concrete data used by witnesses: a trivial interpretation of the numeric
kernels, a reference scan that mirrors the movable scan across the x-axis
(every movable point's nearest reference point is its mirror image), and the
movable scan itself. -/

def NW : Numerics :=
  ⟨fun _ => 1, fun _ => 0, fun _ _ => 0, fun _ => (Mat2.one, Mat2.one)⟩

def refW : KDTreedIcpCollection Pt :=
  KDTreedIcpCollection.new [⟨0, -1⟩, ⟨10, -1⟩, ⟨5, -2⟩]

def movW : ICPCollection Pt := ICPCollection.new [⟨0, 1⟩, ⟨10, 1⟩, ⟨5, 2⟩]

/-- C2: for every non-empty reference and movable collection, one estimator
step computes the nearest-reference correspondence set (one matched reference
point per movable point), the centroids of its two sides, the 2×2
cross-covariance matrix `H = Σ (ref_i - centroid_ref) (mov_i - centroid_mov)ᵗ`,
and returns `t = centroid_ref - R * centroid_mov` together with the rotation
angle `atan2(R[1,0], R[0,0])` extracted from `R = U * Vᵗ`: the fold-based
source function coincides with the closed-form specification `specEstimate`
(and touches neither collection). -/
theorem C2_estimator_matches_spec {ρ μ : Type} [ICPPoint ρ] [ICPPoint μ]
    (N : Numerics) (ref : KDTreedIcpCollection ρ) (mov : ICPCollection μ)
    (h1 : ref.collection ≠ []) (h2 : mov.points ≠ []) :
    center_of_mass_corresp_kd_with_svd N ref mov =
      ((ref, mov), specEstimate N ref.collection mov.points) := by
  simp only [center_of_mass_corresp_kd_with_svd, specEstimate, specCorresp,
    specCentroidRef, specCentroidMov, crossCovOf, meanPts,
    KDTreedIcpCollection.closest, foldl_pt_add, foldl_mat_add, pt_zero_add,
    mat_zero_add, List.map_map, List.length_map, Function.comp]

theorem C2_estimator_matches_spec_witness :
    refW.collection ≠ [] ∧ movW.points ≠ [] ∧
      center_of_mass_corresp_kd_with_svd NW refW movW =
        ((refW, movW), specEstimate NW refW.collection movW.points) :=
  ⟨by decide, by decide,
    C2_estimator_matches_spec NW refW movW (by decide) (by decide)⟩

/-! Center-of-mass invariant machinery (claim C1). -/

theorem sumPoints_eq {α : Type} [ICPPoint α] (pts : List α) :
    sumPoints pts = sumPts (pts.map ICPPoint.point) := by
  unfold sumPoints
  rw [foldl_pt_add, pt_zero_add]

theorem sumPts_map_add (l : List Pt) (v : Pt) :
    sumPts (l.map (fun p => p.add v)) =
      (sumPts l).add ⟨(l.length : ℚ) * v.x, (l.length : ℚ) * v.y⟩ := by
  induction l with
  | nil =>
    exact Pt.ext_xy (by simp [sumPts, Pt.add]) (by simp [sumPts, Pt.add])
  | cons p l ih =>
    simp only [List.map_cons, sumPts, ih, List.length_cons]
    refine Pt.ext_xy ?_ ?_ <;>
      · simp [Pt.add, Nat.cast_add]
        ring

/-- Translating every point moves the recomputed center of mass by exactly the
translation, provided the point kind meets the contract that `translate`
shifts the reported position (both concrete kinds do, definitionally). -/
theorem ccom_translate {α : Type} [ICPPoint α] (pts : List α) (x y : ℚ)
    (hlaw : ∀ (p : α) (dx dy : ℚ),
      ICPPoint.point (ICPPoint.translate p dx dy) = (ICPPoint.point p).add ⟨dx, dy⟩)
    (hne : pts ≠ []) :
    calculate_center_of_mass (pts.map (fun p => ICPPoint.translate p x y)) =
      (calculate_center_of_mass pts).add ⟨x, y⟩ := by
  have hn : ((pts.length : ℚ)) ≠ 0 := by
    exact_mod_cast fun h => hne (List.length_eq_zero.mp (by exact_mod_cast h))
  unfold calculate_center_of_mass
  rw [sumPoints_eq, sumPoints_eq, List.map_map]
  have hmap : pts.map (ICPPoint.point ∘ fun p => ICPPoint.translate p x y) =
      (pts.map ICPPoint.point).map (fun p => p.add ⟨x, y⟩) := by
    rw [List.map_map]
    exact List.map_congr_left (fun a _ => hlaw a x y)
  rw [hmap, sumPts_map_add]
  simp only [List.length_map]
  refine Pt.ext_xy ?_ ?_ <;>
    · simp [Pt.add]
      field_simp
      ring

/-- An arbitrary finite sequence of collection mutations. -/
inductive ColOp where
  | translate (dx dy : ℚ) : ColOp
  | rotate (angle_rad : ℚ) : ColOp

def applyOps {α : Type} [ICPPoint α] (N : Numerics) (c : ICPCollection α) :
    List ColOp → ICPCollection α
  | [] => c
  | ColOp.translate dx dy :: ops => applyOps N (c.translate dx dy) ops
  | ColOp.rotate a :: ops => applyOps N (c.rotate N a) ops

/-- In exact arithmetic the cached center of mass stays exactly equal to the
recomputed mean through any sequence of mutations of a non-empty collection. -/
theorem applyOps_exact {α : Type} [ICPPoint α] (N : Numerics)
    (hlaw : ∀ (p : α) (dx dy : ℚ),
      ICPPoint.point (ICPPoint.translate p dx dy) = (ICPPoint.point p).add ⟨dx, dy⟩) :
    ∀ (ops : List ColOp) (c : ICPCollection α), c.points ≠ [] →
      c.center_of_mass = calculate_center_of_mass c.points →
      (applyOps N c ops).points ≠ [] ∧
        (applyOps N c ops).center_of_mass =
          calculate_center_of_mass (applyOps N c ops).points := by
  intro ops
  induction ops with
  | nil => exact fun c hne heq => ⟨hne, heq⟩
  | cons op ops ih =>
    intro c hne heq
    cases op with
    | translate dx dy =>
      refine ih (c.translate dx dy) ?_ ?_
      · simp [ICPCollection.translate, hne]
      · simp only [ICPCollection.translate, heq]
        exact (ccom_translate c.points dx dy hlaw hne).symm
    | rotate a =>
      refine ih (c.rotate N a) ?_ ?_
      · simp [ICPCollection.rotate, hne]
      · rfl

/-- C1: for every `ICPCollection` built from a non-empty point sequence whose
point kind satisfies the translate contract, after any finite sequence of
`translate`/`rotate` operations the cached center of mass equals the
recomputed mean of the current point positions within the `0.001` per-axis
tolerance of `points_equal_tolerance` (in the exact-arithmetic model the two
agree exactly: `translate` adds `(dx, dy)` to the cache, `rotate` recomputes
it from scratch). -/
theorem C1_center_of_mass_invariant {α : Type} [ICPPoint α] (N : Numerics)
    (pts : List α) (ops : List ColOp) (hne : pts ≠ [])
    (hlaw : ∀ (p : α) (dx dy : ℚ),
      ICPPoint.point (ICPPoint.translate p dx dy) = (ICPPoint.point p).add ⟨dx, dy⟩) :
    points_equal_tolerance (applyOps N (ICPCollection.new pts) ops).center_of_mass
      (calculate_center_of_mass (applyOps N (ICPCollection.new pts) ops).points) := by
  obtain ⟨-, heq⟩ := applyOps_exact N hlaw ops (ICPCollection.new pts) hne rfl
  rw [heq]
  exact ⟨by simp [floats_are_equal], by simp [floats_are_equal]⟩

theorem C1_center_of_mass_invariant_witness :
    ([⟨1, 2⟩, ⟨3, 4⟩] : List Pt) ≠ [] ∧
      points_equal_tolerance
        (applyOps NW (ICPCollection.new ([⟨1, 2⟩, ⟨3, 4⟩] : List Pt))
          [ColOp.translate 1 1, ColOp.rotate 5]).center_of_mass
        (calculate_center_of_mass
          (applyOps NW (ICPCollection.new ([⟨1, 2⟩, ⟨3, 4⟩] : List Pt))
            [ColOp.translate 1 1, ColOp.rotate 5]).points) :=
  ⟨by decide,
    C1_center_of_mass_invariant NW ([⟨1, 2⟩, ⟨3, 4⟩] : List Pt)
      [ColOp.translate 1 1, ColOp.rotate 5] (by decide) (fun p dx dy => rfl)⟩

/-! Early-stop behaviour of the iteration loop (claim C3). -/

/-- The convergence test of step d of the loop: incremental translation norm
under `convergence_distance` and absolute incremental rotation under
`convergence_rotation`. -/
def stepConverged (cd cr : ℚ) (s : Pt × ℚ) : Prop := normLt s.1 cd ∧ |s.2| < cr

instance (cd cr : ℚ) (s : Pt × ℚ) : Decidable (stepConverged cd cr s) :=
  inferInstanceAs (Decidable (_ ∧ _))

/-- The loop executes at most `fuel` iterations, and an iteration whose
incremental transform meets both thresholds is always the last executed one. -/
theorem icpLoop_steps_spec {ρ μ : Type} [ICPPoint ρ] [ICPPoint μ] (N : Numerics)
    (tf : TransFn ρ μ) (cd cr : ℚ) :
    ∀ (fuel : ℕ) (ref : KDTreedIcpCollection ρ) (mov : ICPCollection μ)
      (tt : Pt) (tr : ℚ),
      (icpLoop N tf cd cr ref mov tt tr fuel).steps.length ≤ fuel ∧
      ∀ (k : ℕ) (s : Pt × ℚ),
        (icpLoop N tf cd cr ref mov tt tr fuel).steps.get? k = some s →
        stepConverged cd cr s →
        (icpLoop N tf cd cr ref mov tt tr fuel).steps.length = k + 1 := by
  intro fuel
  induction fuel with
  | zero =>
    intro ref mov tt tr
    refine ⟨by simp [icpLoop], ?_⟩
    intro k s hk
    simp [icpLoop] at hk
  | succ n ih =>
    intro ref mov tt tr
    by_cases hcv : normLt (tf ref mov).2.1 cd ∧ |(tf ref mov).2.2| < cr
    · have hsteps : (icpLoop N tf cd cr ref mov tt tr (n + 1)).steps =
          [((tf ref mov).2.1, (tf ref mov).2.2)] := by
        simp [icpLoop, hcv]
      rw [hsteps]
      refine ⟨by simp, ?_⟩
      intro k s hk hconv
      cases k with
      | zero => simp
      | succ m => simp at hk
    · have hsteps : (icpLoop N tf cd cr ref mov tt tr (n + 1)).steps =
          ((tf ref mov).2.1, (tf ref mov).2.2) ::
            (icpLoop N tf cd cr ((tf ref mov).1.1)
              ((((tf ref mov).1.2).translate (tf ref mov).2.1.x (tf ref mov).2.1.y).rotate N
                (tf ref mov).2.2)
              (tt.add (tf ref mov).2.1) (tr + (tf ref mov).2.2) n).steps := by
        simp [icpLoop, hcv]
      obtain ⟨ihlen, ihconv⟩ := ih ((tf ref mov).1.1)
        ((((tf ref mov).1.2).translate (tf ref mov).2.1.x (tf ref mov).2.1.y).rotate N
          (tf ref mov).2.2)
        (tt.add (tf ref mov).2.1) (tr + (tf ref mov).2.2)
      rw [hsteps]
      constructor
      · simpa using Nat.succ_le_succ ihlen
      · intro k s hk hconv
        cases k with
        | zero =>
          simp only [List.get?_cons_zero, Option.some.injEq] at hk
          subst hk
          exact absurd hconv hcv
        | succ m =>
          simp only [List.get?_cons_succ] at hk
          simp [ihconv m s hk hconv]

/-- C3: in every registration run, if the incremental transform of executed
iteration `k` falls under both convergence thresholds then iteration `k + 1`
is never executed (the trace ends right after iteration `k`), and the loop
body executes at most `max_iterations` times — the budget is a ceiling, not a
required count. -/
theorem C3_early_stop {ρ μ : Type} [ICPPoint ρ] [ICPPoint μ] (N : Numerics)
    (icp : Icp ρ μ) (x y angle_rad : ℚ) :
    (run_trace N icp x y angle_rad).length ≤ icp.max_iterations ∧
    ∀ (k : ℕ) (s : Pt × ℚ),
      (run_trace N icp x y angle_rad).get? k = some s →
      stepConverged icp.convergence_distance icp.convergence_rotation s →
      (run_trace N icp x y angle_rad).length = k + 1 := by
  unfold run_trace
  exact icpLoop_steps_spec N (center_of_mass_corresp_kd_with_svd N)
    icp.convergence_distance icp.convergence_rotation icp.max_iterations
    icp.points_reference ((icp.points_other.translate x y).rotate N angle_rad)
    ⟨x, y⟩ angle_rad

/-- A tiny concrete session (one reference point, one movable point, one
iteration allowed): its single executed iteration converges immediately. -/
def icpW : Icp Pt Pt := Icp.new ([⟨0, 0⟩] : List Pt) ([⟨0, 0⟩] : List Pt) 1 1 1 1

theorem run_trace_icpW : run_trace NW icpW 0 0 0 = [(⟨0, 0⟩, 0)] := by
  norm_num [run_trace, icpLoop, icpW, NW, Icp.new, ICPCollection.new,
    ICPCollection.translate, ICPCollection.rotate, KDTreedIcpCollection.new,
    KDTreedIcpCollection.closest, closest_point_kd, calculate_center_of_mass,
    sumPoints, center_of_mass_corresp_kd_with_svd, rot2, Mat2.one, Mat2.zero,
    Mat2.mul, Mat2.add, Mat2.mulPt, Mat2.outer, Pt.add, Pt.sub, normLt,
    ICPPoint.translate, ICPPoint.rotate, ICPPoint.point]

theorem C3_early_stop_witness :
    (run_trace NW icpW 0 0 0).get? 0 = some (⟨0, 0⟩, 0) ∧
      stepConverged icpW.convergence_distance icpW.convergence_rotation (⟨0, 0⟩, 0) ∧
      (run_trace NW icpW 0 0 0).length = 0 + 1 :=
  ⟨by rw [run_trace_icpW]; rfl,
    by constructor <;> norm_num [normLt, icpW, Icp.new],
    (C3_early_stop NW icpW 0 0 0).2 0 (⟨0, 0⟩, 0) (by rw [run_trace_icpW]; rfl)
      (by constructor <;> norm_num [normLt, icpW, Icp.new])⟩

/-! Frame and length preservation of the iteration loop (claims C8, C9). -/

theorem comSvd_collections_id {ρ μ : Type} [ICPPoint ρ] [ICPPoint μ]
    (N : Numerics) (r : KDTreedIcpCollection ρ) (m : ICPCollection μ) :
    (center_of_mass_corresp_kd_with_svd N r m).1 = (r, m) := rfl

/-- Any transformation function that hands the reference collection back
unchanged leaves it unchanged at every iteration of the loop. -/
theorem icpLoop_ref_invariant {ρ μ : Type} [ICPPoint ρ] [ICPPoint μ]
    (N : Numerics) (tf : TransFn ρ μ) (cd cr : ℚ)
    (htf : ∀ r m, (tf r m).1.1 = r) :
    ∀ (fuel : ℕ) (ref : KDTreedIcpCollection ρ) (mov : ICPCollection μ)
      (tt : Pt) (tr : ℚ),
      (icpLoop N tf cd cr ref mov tt tr fuel).ref = ref := by
  intro fuel
  induction fuel with
  | zero => intro ref mov tt tr; rfl
  | succ n ih =>
    intro ref mov tt tr
    by_cases hcv : normLt (tf ref mov).2.1 cd ∧ |(tf ref mov).2.2| < cr
    · simp [icpLoop, hcv, htf]
    · simp [icpLoop, hcv, htf, ih]

/-- `translate` and `rotate` replace points one-for-one, so the loop preserves
the movable point count for any transformation function that does not touch
the movable collection itself. -/
theorem icpLoop_mov_length {ρ μ : Type} [ICPPoint ρ] [ICPPoint μ]
    (N : Numerics) (tf : TransFn ρ μ) (cd cr : ℚ)
    (htf : ∀ r m, (tf r m).1.2 = m) :
    ∀ (fuel : ℕ) (ref : KDTreedIcpCollection ρ) (mov : ICPCollection μ)
      (tt : Pt) (tr : ℚ),
      (icpLoop N tf cd cr ref mov tt tr fuel).mov.points.length =
        mov.points.length := by
  intro fuel
  induction fuel with
  | zero => intro ref mov tt tr; rfl
  | succ n ih =>
    intro ref mov tt tr
    by_cases hcv : normLt (tf ref mov).2.1 cd ∧ |(tf ref mov).2.2| < cr
    · simp [icpLoop, hcv, htf, ICPCollection.translate, ICPCollection.rotate]
    · simp [icpLoop, hcv, htf, ih, ICPCollection.translate, ICPCollection.rotate]

/-- C8: the indexed reference collection (its point sequence — over which the
spatial index is built — and its cached center of mass) is never mutated: it
is the same at every iteration of the registration loop and in the final
session state; only the movable collection changes. -/
theorem C8_reference_never_mutated {ρ μ : Type} [ICPPoint ρ] [ICPPoint μ]
    (N : Numerics) (icp : Icp ρ μ) (x y angle_rad : ℚ) :
    (∀ (fuel : ℕ) (mov : ICPCollection μ) (tt : Pt) (tr : ℚ),
      (icpLoop N (center_of_mass_corresp_kd_with_svd N) icp.convergence_distance
        icp.convergence_rotation icp.points_reference mov tt tr fuel).ref =
        icp.points_reference) ∧
    (do_icp_generic N icp x y angle_rad
      (center_of_mass_corresp_kd_with_svd N)).2.points_reference =
      icp.points_reference := by
  constructor
  · intro fuel mov tt tr
    exact icpLoop_ref_invariant N (center_of_mass_corresp_kd_with_svd N)
      icp.convergence_distance icp.convergence_rotation (fun r m => rfl) fuel
      icp.points_reference mov tt tr
  · simp only [do_icp_generic]
    exact icpLoop_ref_invariant N (center_of_mass_corresp_kd_with_svd N)
      icp.convergence_distance icp.convergence_rotation (fun r m => rfl)
      icp.max_iterations icp.points_reference _ _ _

theorem do_icp_length {ρ μ : Type} [ICPPoint ρ] [ICPPoint μ]
    (N : Numerics) (icp : Icp ρ μ) (x y angle_rad : ℚ) :
    (do_icp N icp x y angle_rad).2.length = icp.points_other.points.length := by
  simp only [do_icp, do_icp_generic]
  rw [icpLoop_mov_length N (center_of_mass_corresp_kd_with_svd N)
    icp.convergence_distance icp.convergence_rotation (fun r m => rfl)
    icp.max_iterations icp.points_reference _ ⟨x, y⟩ angle_rad]
  simp [ICPCollection.translate, ICPCollection.rotate]

/-- C9: the point sequence handed back by `do_icp` has exactly the length of
the input movable sequence — `translate`/`rotate` replace points one-for-one
and the loop never adds or drops points. -/
theorem C9_ownership_roundtrip {ρ μ : Type} [ICPPoint ρ] [ICPPoint μ]
    (N : Numerics) (icp : Icp ρ μ) (x y angle_rad : ℚ) :
    (do_icp N icp x y angle_rad).2.length = icp.points_other.points.length :=
  do_icp_length N icp x y angle_rad

/-- C5: the `convergence` field of the result of every registration run (with
non-empty reference and movable collections) lies in `[0, 1]`, and it equals
`1` only if every final movable point has a nearest reference neighbour whose
axis-wise absolute differences are both strictly below
`convergence_points_maxdist` — it is the fraction of movable points passing
that test. -/
theorem C5_convergence_bounds {ρ μ : Type} [ICPPoint ρ] [ICPPoint μ]
    (N : Numerics) (icp : Icp ρ μ) (x y angle_rad : ℚ)
    (href : icp.points_reference.collection ≠ [])
    (hmov : icp.points_other.points ≠ []) :
    0 ≤ (do_icp N icp x y angle_rad).1.convergence ∧
    (do_icp N icp x y angle_rad).1.convergence ≤ 1 ∧
    ((do_icp N icp x y angle_rad).1.convergence = 1 →
      ∀ p ∈ (do_icp N icp x y angle_rad).2,
        ptPasses icp.points_reference icp.convergence_points_maxdist
          (ICPPoint.point p)) := by
  have href2 := icpLoop_ref_invariant N (center_of_mass_corresp_kd_with_svd N)
    icp.convergence_distance icp.convergence_rotation (fun r m => rfl)
    icp.max_iterations icp.points_reference
    ((icp.points_other.translate x y).rotate N angle_rad) ⟨x, y⟩ angle_rad
  have hlen := icpLoop_mov_length N (center_of_mass_corresp_kd_with_svd N)
    icp.convergence_distance icp.convergence_rotation (fun r m => rfl)
    icp.max_iterations icp.points_reference
    ((icp.points_other.translate x y).rotate N angle_rad) ⟨x, y⟩ angle_rad
  simp only [do_icp, do_icp_generic]
  rw [href2]
  set out := icpLoop N (center_of_mass_corresp_kd_with_svd N)
    icp.convergence_distance icp.convergence_rotation icp.points_reference
    ((icp.points_other.translate x y).rotate N angle_rad) ⟨x, y⟩ angle_rad
    icp.max_iterations with hout
  have hlen0 : out.mov.points.length ≠ 0 := by
    rw [hlen]
    simp only [ICPCollection.rotate, ICPCollection.translate, List.length_map]
    exact fun h => hmov (List.length_eq_zero.mp h)
  have hlpos : (0 : ℚ) < (out.mov.points.length : ℚ) := by
    exact_mod_cast Nat.pos_of_ne_zero hlen0
  have hcnt : out.mov.points.countP
      (fun p => decide (ptPasses icp.points_reference
        icp.convergence_points_maxdist (ICPPoint.point p))) ≤
      out.mov.points.length := List.countP_le_length _
  refine ⟨?_, ?_, ?_⟩
  · exact div_nonneg (by exact_mod_cast Nat.zero_le _) (le_of_lt hlpos)
  · rw [div_le_one hlpos]
    exact_mod_cast hcnt
  · intro hone p hp
    rw [div_eq_one_iff_eq (ne_of_gt hlpos)] at hone
    have hone2 : out.mov.points.countP
        (fun p => decide (ptPasses icp.points_reference
          icp.convergence_points_maxdist (ICPPoint.point p))) =
        out.mov.points.length := by exact_mod_cast hone
    have := List.countP_eq_length.mp hone2 p hp
    simpa using this


theorem C5_convergence_bounds_witness :
    icpW.points_reference.collection ≠ [] ∧ icpW.points_other.points ≠ [] ∧
      0 ≤ (do_icp NW icpW 0 0 0).1.convergence ∧
      (do_icp NW icpW 0 0 0).1.convergence ≤ 1 :=
  ⟨by decide, by decide,
    (C5_convergence_bounds NW icpW 0 0 0 (by decide) (by decide)).1,
    (C5_convergence_bounds NW icpW 0 0 0 (by decide) (by decide)).2.1⟩

/-- C10: `do_icp` is deterministic — two runs with equal reference points,
equal movable points, equal parameters and equal initial guess (under the same
deterministic numeric kernels) return equal `ICPResult`s and equal final point
sequences; the embedding is a pure function of its inputs, mirroring a source
with no randomness, clock or I/O. -/
theorem C10_deterministic {ρ μ : Type} [ICPPoint ρ] [ICPPoint μ] (N : Numerics)
    (ref1 ref2 : List ρ) (mov1 mov2 : List μ) (mi1 mi2 : ℕ)
    (cd1 cd2 cr1 cr2 cpm1 cpm2 x1 x2 y1 y2 a1 a2 : ℚ)
    (href : ref1 = ref2) (hmov : mov1 = mov2) (hmi : mi1 = mi2)
    (hcd : cd1 = cd2) (hcr : cr1 = cr2) (hcpm : cpm1 = cpm2)
    (hx : x1 = x2) (hy : y1 = y2) (ha : a1 = a2) :
    do_icp N (Icp.new ref1 mov1 mi1 cd1 cr1 cpm1) x1 y1 a1 =
      do_icp N (Icp.new ref2 mov2 mi2 cd2 cr2 cpm2) x2 y2 a2 := by
  subst href hmov hmi hcd hcr hcpm hx hy ha
  rfl

theorem C10_deterministic_witness :
    do_icp NW (Icp.new ([⟨0, 0⟩] : List Pt) ([⟨0, 0⟩] : List Pt) 1 1 1 1) 0 0 0 =
      do_icp NW (Icp.new ([⟨0, 0⟩] : List Pt) ([⟨0, 0⟩] : List Pt) 1 1 1 1) 0 0 0 :=
  C10_deterministic NW ([⟨0, 0⟩] : List Pt) ([⟨0, 0⟩] : List Pt)
    ([⟨0, 0⟩] : List Pt) ([⟨0, 0⟩] : List Pt) 1 1 1 1 1 1 1 1 0 0 0 0 0 0
    rfl rfl rfl rfl rfl rfl rfl rfl rfl

/-- C4 counterexample: on an empty collection the code does not produce an
explicit "empty collection" error — the nearest-neighbour query panics
(`unwrap` of `None`, modelled by `none`) and the center-of-mass computation
divides by a zero length, producing a non-finite value (NaN, modelled by
`none`); the claim that neither may produce NaN or panic is false. -/
theorem C4_counterexample :
    closest_point_kd? ([] : List Pt) ⟨0, 0⟩ = none ∧
      calculate_center_of_mass? ([] : List Pt) = none :=
  ⟨rfl, rfl⟩

/-- C4 (amended): on empty input both partial operations fail (panic for the
nearest-neighbour query, non-finite mean for the center of mass) instead of
returning an explicit error value, and on non-empty input both are defined —
callers must guarantee non-emptiness, as the spec's component contract
states. -/
theorem C4_empty_collection_behaviour {α : Type} [ICPPoint α] (l : List α)
    (q : Pt) :
    (l = [] → closest_point_kd? l q = none ∧ calculate_center_of_mass? l = none) ∧
    (l ≠ [] → closest_point_kd? l q = some (closest_point_kd l q) ∧
      calculate_center_of_mass? l = some (calculate_center_of_mass l)) := by
  cases l with
  | nil => exact ⟨fun _ => ⟨rfl, rfl⟩, fun h => absurd rfl h⟩
  | cons p rest =>
    refine ⟨fun h => by simp at h, fun _ => ⟨rfl, ?_⟩⟩
    simp [calculate_center_of_mass?]

theorem C4_empty_collection_behaviour_witness :
    (closest_point_kd? ([] : List Pt) ⟨1, 1⟩ = none ∧
      calculate_center_of_mass? ([] : List Pt) = none) ∧
    (closest_point_kd? ([⟨2, 3⟩] : List Pt) ⟨1, 1⟩ =
        some (closest_point_kd ([⟨2, 3⟩] : List Pt) ⟨1, 1⟩) ∧
      calculate_center_of_mass? ([⟨2, 3⟩] : List Pt) =
        some (calculate_center_of_mass ([⟨2, 3⟩] : List Pt))) :=
  ⟨(C4_empty_collection_behaviour ([] : List Pt) ⟨1, 1⟩).1 rfl,
    (C4_empty_collection_behaviour ([⟨2, 3⟩] : List Pt) ⟨1, 1⟩).2 (by decide)⟩

def Mat2.diag (s1 s2 : ℚ) : Mat2 := ⟨s1, 0, 0, s2⟩

def Mat2.IsOrthogonal (m : Mat2) : Prop :=
  m.mul m.transpose = Mat2.one ∧ m.transpose.mul m = Mat2.one

def IsSvdOf (h u : Mat2) (s1 s2 : ℚ) (vt : Mat2) : Prop :=
  Mat2.IsOrthogonal u ∧ Mat2.IsOrthogonal vt ∧ 0 ≤ s2 ∧ s2 ≤ s1 ∧
    h = u.mul ((Mat2.diag s1 s2).mul vt)

def svdYieldsProperRotation (h : Mat2) : Prop :=
  ∀ (u : Mat2) (s1 s2 : ℚ) (vt : Mat2), IsSvdOf h u s1 s2 vt → (u.mul vt).det = 1

theorem Mat2.det_mul (m n : Mat2) : (m.mul n).det = m.det * n.det := by
  simp [Mat2.mul, Mat2.det]
  ring

theorem Mat2.det_transpose (m : Mat2) : m.transpose.det = m.det := by
  simp [Mat2.transpose, Mat2.det]
  ring

theorem Mat2.det_of_orthogonal {m : Mat2} (h : Mat2.IsOrthogonal m) :
    m.det * m.det = 1 := by
  have h2 := congrArg Mat2.det h.1
  rw [Mat2.det_mul, Mat2.det_transpose] at h2
  simpa [Mat2.one, Mat2.det] using h2

def refMirror : List Pt := [⟨0, -1⟩, ⟨10, -1⟩, ⟨5, -2⟩]

def movMirror : List Pt := [⟨0, 1⟩, ⟨10, 1⟩, ⟨5, 2⟩]

theorem crossCov_mirror : crossCovariance refMirror movMirror = ⟨50, 0, 0, -2/3⟩ := by
  norm_num [crossCovariance, crossCovOf, specCorresp, specCentroidRef,
    specCentroidMov, meanPts, sumPts, sumMats, refMirror, movMirror,
    closest_point_kd, sqDist, Mat2.outer, Mat2.add, Mat2.zero, Pt.sub, Pt.add,
    ICPPoint.point]

theorem crossCov_self : crossCovariance movMirror movMirror = ⟨50, 0, 0, 2/3⟩ := by
  norm_num [crossCovariance, crossCovOf, specCorresp, specCentroidRef,
    specCentroidMov, meanPts, sumPts, sumMats, movMirror,
    closest_point_kd, sqDist, Mat2.outer, Mat2.add, Mat2.zero, Pt.sub, Pt.add,
    ICPPoint.point]

/-- C6 counterexample: the claim that `R = U * Vᵗ` is always a proper rotation
is false — for the mirrored correspondence set `refMirror`/`movMirror` the
cross-covariance matrix is `diag(50, -2/3)` with negative determinant, and the
exhibited SVD (`U = I`, `Σ = diag(50, 2/3)`, `Vᵗ = diag(1, -1)`) yields
`R = diag(1, -1)`, a reflection with determinant `-1`. -/
theorem C6_counterexample :
    ¬ svdYieldsProperRotation (crossCovariance refMirror movMirror) := by
  intro hall
  have h := hall Mat2.one 50 (2/3) ⟨1, 0, 0, -1⟩ ?_
  · norm_num [Mat2.mul, Mat2.one, Mat2.det] at h
  · rw [crossCov_mirror]
    refine ⟨⟨?_, ?_⟩, ⟨?_, ?_⟩, by norm_num, by norm_num, ?_⟩ <;>
      norm_num [Mat2.mul, Mat2.transpose, Mat2.one, Mat2.diag]

/-- C6 (amended): for every correspondence set, any SVD `H = U Σ Vᵗ` of the
cross-covariance matrix gives `det (U * Vᵗ) = sign (det H)`: a proper rotation
(determinant `+1`) whenever `det H > 0`, but a reflection (determinant `-1`)
whenever `det H < 0`, since no reflection-correction step is performed. -/
theorem C6_rotation_det {ρ μ : Type} [ICPPoint ρ] [ICPPoint μ]
    (ref : List ρ) (mov : List μ) (u : Mat2) (s1 s2 : ℚ) (vt : Mat2)
    (hsvd : IsSvdOf (crossCovariance ref mov) u s1 s2 vt) :
    (0 < (crossCovariance ref mov).det → (u.mul vt).det = 1) ∧
    ((crossCovariance ref mov).det < 0 → (u.mul vt).det = -1) := by
  obtain ⟨hu, hv, hs2, hs12, heq⟩ := hsvd
  have hdu := Mat2.det_of_orthogonal hu
  have hdv := Mat2.det_of_orthogonal hv
  have hdh : (crossCovariance ref mov).det = (s1 * s2) * (u.det * vt.det) := by
    rw [heq, Mat2.det_mul, Mat2.det_mul]
    simp [Mat2.diag, Mat2.det]
    ring
  have hDD : (u.det * vt.det) * (u.det * vt.det) = 1 := by
    calc (u.det * vt.det) * (u.det * vt.det)
        = (u.det * u.det) * (vt.det * vt.det) := by ring
      _ = 1 := by rw [hdu, hdv]; ring
  have hs1s2 : 0 ≤ s1 * s2 := mul_nonneg (le_trans hs2 hs12) hs2
  rw [Mat2.det_mul]
  rcases mul_self_eq_one_iff.mp hDD with hD | hD
  · refine ⟨fun _ => hD, fun hneg => ?_⟩
    rw [hdh, hD, mul_one] at hneg
    exact absurd hneg (not_lt.mpr hs1s2)
  · refine ⟨fun hpos => ?_, fun _ => hD⟩
    rw [hdh, hD] at hpos
    nlinarith

theorem C6_rotation_det_witness :
    IsSvdOf (crossCovariance movMirror movMirror) Mat2.one 50 (2/3) Mat2.one ∧
      0 < (crossCovariance movMirror movMirror).det ∧
      (Mat2.one.mul Mat2.one).det = 1 := by
  have hsvd : IsSvdOf (crossCovariance movMirror movMirror) Mat2.one 50 (2/3)
      Mat2.one := by
    rw [crossCov_self]
    refine ⟨⟨?_, ?_⟩, ⟨?_, ?_⟩, by norm_num, by norm_num, ?_⟩ <;>
      norm_num [Mat2.mul, Mat2.transpose, Mat2.one, Mat2.diag]
  have hdet : 0 < (crossCovariance movMirror movMirror).det := by
    rw [crossCov_self]
    norm_num [Mat2.det]
  exact ⟨hsvd, hdet,
    (C6_rotation_det movMirror movMirror Mat2.one 50 (2/3) Mat2.one hsvd).1 hdet⟩

/-! Point-type equivalence (claim C7): the coordinate-pair point kind
simulates the bare-point kind through the bijection `tupOfPt`. -/

def tupOfPt (p : Pt) : ℚ × ℚ := (p.x, p.y)

@[simp] theorem point_tupOfPt (p : Pt) : ICPPoint.point (tupOfPt p) = p := rfl

@[simp] theorem translate_tupOfPt (p : Pt) (x y : ℚ) :
    ICPPoint.translate (tupOfPt p) x y = tupOfPt (ICPPoint.translate p x y) := rfl

@[simp] theorem rotate_tupOfPt (N : Numerics) (p : Pt) (a : ℚ) :
    ICPPoint.rotate N (tupOfPt p) a = tupOfPt (ICPPoint.rotate N p a) := rfl

theorem sumPoints_map_tup (l : List Pt) :
    sumPoints (l.map tupOfPt) = sumPoints l := by
  unfold sumPoints
  rw [List.foldl_map]
  rfl

theorem ccom_map_tup (l : List Pt) :
    calculate_center_of_mass (l.map tupOfPt) = calculate_center_of_mass l := by
  simp [calculate_center_of_mass, sumPoints_map_tup, List.length_map]

theorem closest_map_tup (l : List Pt) (q : Pt) :
    closest_point_kd (l.map tupOfPt) q = closest_point_kd l q := by
  cases l with
  | nil => rfl
  | cons p rest =>
    simp only [List.map_cons, closest_point_kd, List.foldl_map]
    rfl

def colTup (c : ICPCollection Pt) : ICPCollection (ℚ × ℚ) :=
  ⟨c.points.map tupOfPt, c.center_of_mass⟩

def refTupCol (c : KDTreedIcpCollection Pt) : KDTreedIcpCollection (ℚ × ℚ) :=
  ⟨c.collection.map tupOfPt, c.center_of_mass⟩

theorem new_colTup (l : List Pt) :
    ICPCollection.new (l.map tupOfPt) = colTup (ICPCollection.new l) := by
  simp [ICPCollection.new, colTup, ccom_map_tup]

theorem new_refTup (l : List Pt) :
    KDTreedIcpCollection.new (l.map tupOfPt) =
      refTupCol (KDTreedIcpCollection.new l) := by
  simp [KDTreedIcpCollection.new, refTupCol, ccom_map_tup]

theorem translate_colTup (c : ICPCollection Pt) (x y : ℚ) :
    (colTup c).translate x y = colTup (c.translate x y) := by
  simp [ICPCollection.translate, colTup, List.map_map, Function.comp]

theorem rotate_colTup (N : Numerics) (c : ICPCollection Pt) (a : ℚ) :
    (colTup c).rotate N a = colTup (c.rotate N a) := by
  have hmap : c.points.map ((fun p => ICPPoint.rotate N p a) ∘ tupOfPt) =
      (c.points.map (fun p => ICPPoint.rotate N p a)).map tupOfPt := by
    rw [List.map_map]
    exact List.map_congr_left fun p _ => rotate_tupOfPt N p a
  simp only [ICPCollection.rotate, colTup, List.map_map]
  rw [hmap, ccom_map_tup, List.map_map]

theorem closest_refTup (c : KDTreedIcpCollection Pt) (q : Pt) :
    (refTupCol c).closest q = c.closest q := by
  simp [KDTreedIcpCollection.closest, refTupCol, closest_map_tup]

theorem comSvd_tup (N : Numerics) (r : KDTreedIcpCollection Pt)
    (m : ICPCollection Pt) :
    center_of_mass_corresp_kd_with_svd N (refTupCol r) (colTup m) =
      ((refTupCol r, colTup m), (center_of_mass_corresp_kd_with_svd N r m).2) := by
  have hcor : (colTup m).points.map
      (fun p => (ICPPoint.point p, (refTupCol r).closest (ICPPoint.point p))) =
      m.points.map (fun p => (ICPPoint.point p, r.closest (ICPPoint.point p))) := by
    simp only [colTup, List.map_map]
    exact List.map_congr_left fun p _ => by
      simp only [Function.comp, point_tupOfPt, closest_refTup]
      rfl
  simp only [center_of_mass_corresp_kd_with_svd, hcor]
  simp [colTup, List.length_map]

theorem icpLoop_tup (N : Numerics) (cd cr : ℚ) :
    ∀ (fuel : ℕ) (r : KDTreedIcpCollection Pt) (m : ICPCollection Pt)
      (tt : Pt) (tr : ℚ),
      icpLoop N (center_of_mass_corresp_kd_with_svd N) cd cr (refTupCol r)
          (colTup m) tt tr fuel =
        ⟨refTupCol (icpLoop N (center_of_mass_corresp_kd_with_svd N) cd cr r m tt tr fuel).ref,
         colTup (icpLoop N (center_of_mass_corresp_kd_with_svd N) cd cr r m tt tr fuel).mov,
         (icpLoop N (center_of_mass_corresp_kd_with_svd N) cd cr r m tt tr fuel).total_translation,
         (icpLoop N (center_of_mass_corresp_kd_with_svd N) cd cr r m tt tr fuel).total_rotation,
         (icpLoop N (center_of_mass_corresp_kd_with_svd N) cd cr r m tt tr fuel).steps⟩ := by
  intro fuel
  induction fuel with
  | zero => intro r m tt tr; rfl
  | succ n ih =>
    intro r m tt tr
    by_cases hcv : normLt (center_of_mass_corresp_kd_with_svd N r m).2.1 cd ∧
        |(center_of_mass_corresp_kd_with_svd N r m).2.2| < cr
    · simp [icpLoop, comSvd_tup, hcv, translate_colTup, rotate_colTup,
        comSvd_collections_id]
    · simp [icpLoop, comSvd_tup, hcv, translate_colTup, rotate_colTup, ih,
        comSvd_collections_id]

theorem ptPasses_refTup (c : KDTreedIcpCollection Pt) (d : ℚ) (q : Pt) :
    ptPasses (refTupCol c) d q ↔ ptPasses c d q := by
  simp [ptPasses, closest_refTup]

@[simp] theorem point_pt (p : Pt) : ICPPoint.point p = p := rfl

/-- C7: running the identical registration scenario (same coordinates,
parameters, numeric kernels, and initial guess) with the coordinate-pair point
kind returns exactly the same `ICPResult` as running it with the bare-point
kind, and the final point sequences correspond coordinate-for-coordinate —
the two point kinds implement translate, rotate, position, and validity with
identical semantics. -/
theorem C7_point_type_equivalence (N : Numerics) (ref mov : List Pt) (mi : ℕ)
    (cd cr cpm x y angle_rad : ℚ) :
    do_icp N (Icp.new (ref.map tupOfPt) (mov.map tupOfPt) mi cd cr cpm)
        x y angle_rad =
      ((do_icp N (Icp.new ref mov mi cd cr cpm) x y angle_rad).1,
       (do_icp N (Icp.new ref mov mi cd cr cpm) x y angle_rad).2.map tupOfPt) := by
  simp only [do_icp, do_icp_generic, Icp.new, new_colTup, new_refTup,
    translate_colTup, rotate_colTup, icpLoop_tup]
  simp only [colTup, List.length_map, List.countP_map]
  simp only [Prod.mk.injEq, ICPResult.mk.injEq]
  refine ⟨⟨trivial, trivial, trivial, ?_⟩, trivial⟩
  congr 1
  exact_mod_cast List.countP_congr (fun p hp => by
    simp [Function.comp, ptPasses_refTup])
